import Mathlib

/-!
Verification of the audio-to-rhythm-note analysis pipeline of the
rhythm-game repository (`generateLevel` in `src/views/game.js`).

The JavaScript pipeline is shallowly embedded over the exact rationals `ℚ`.
JavaScript numbers are IEEE doubles; all arithmetic of the pipeline
(sums, differences, divisions, comparisons, `Math.floor`, `Math.round`,
`Math.abs`, `Math.min`, `Math.max`) is embedded exactly on `ℚ`.
`Math.sqrt` has no exact rational counterpart, so every stage that calls it
(`rms` envelope extraction and the standard deviation of the onset curve)
is parameterised by an abstract square-root function `sq : ℚ → ℚ`.
No theorem below depends on properties of `sq` beyond the ones it states
explicitly (such as `sq 0 = 0`, which holds for `Math.sqrt`).

The tempo-estimation stage of the source contains two `while` loops.  The
doubling loop `while (x < 0.3 && x < 2) x *= 2` does not terminate when it
is entered with `x = 0` (which happens exactly when no dominant
inter-onset interval was found).  The embedding therefore returns an
`Option ℚ`: the loops are unfolded with an explicitly computed amount of
fuel, `none` marks a run of the source that never terminates.  Theorems
`doubleFuel_nonpos_none`, `halveFuel_enough` and `doubleFuel_enough` below
establish that `none` is returned exactly on the diverging inputs, i.e.
that the fuel is sufficient on all terminating ones.
-/

/-- Window size in samples for RMS/ODF calculation (`winSize` in the source). -/
def winSize : ℕ := 1024

/-- Hop size in samples (`hop = winSize / 2` in the source). -/
def hop : ℕ := winSize / 2

/-- The difficulty selector: exactly three accepted values. -/
inductive Difficulty
  | easy
  | medium
  | hard
deriving DecidableEq, Repr

/-- Minimum time separation between notes in seconds (`minNoteSeparation`). -/
def minNoteSeparation : Difficulty → ℚ
  | .easy => 3/10
  | .medium => 3/20
  | .hard => 2/25

/-- ODF sensitivity multiplier (`odfSensitivity`). -/
def odfSensitivity : Difficulty → ℚ
  | .easy => 1/2
  | .medium => 4/5
  | .hard => 6/5

/-- Rhythmic subdivisions to snap notes to (`quantizationGrid`). -/
def quantizationGrid : Difficulty → List ℚ
  | .easy => [1, 1/2]
  | .medium => [1, 1/2, 1/4]
  | .hard => [1, 1/2, 1/4, 1/8]

/-- Percentile of RMS amplitude classifying a note as strong
(`strongNoteThreshold = 0.6`). -/
def strongNoteThreshold : ℚ := 3/5

/-- An onset candidate / quantized onset:
`{ time, originalRms, odfValue }` in the source. -/
structure Onset where
  time : ℚ
  originalRms : ℚ
  odfValue : ℚ
deriving DecidableEq, Repr

/-- A final note event: `{ time, key }` in the source, `key` one of the four
arrow symbols. -/
structure Note where
  time : ℚ
  key : String
deriving DecidableEq, Repr

/-- JavaScript `Math.round` (round half towards positive infinity). -/
def jround (q : ℚ) : ℤ := ⌊q + 1/2⌋

/-- Step 1 of the source: the RMS energy envelope.  The source slides a
window of `winSize` samples in steps of `hop` while a full window fits
(`i + winSize <= raw.length`) and pushes `Math.sqrt(sum / winSize)` where
`sum` is the sum of the squared samples of the window. -/
def rmsWindows (sq : ℚ → ℚ) (raw : List ℚ) : List ℚ :=
  (List.range (if raw.length < winSize then 0 else (raw.length - winSize) / hop + 1)).map
    (fun w => sq ((((raw.drop (hop * w)).take winSize).map (fun x => x * x)).sum / (winSize : ℚ)))

/-- Step 2 of the source: the raw onset detection function.
`odf = [0]` followed by `max(0, rms[i] - rms[i-1])` for `i ≥ 1`. -/
def odfOf (rms : List ℚ) : List ℚ :=
  0 :: (rms.zip rms.tail).map (fun p => max 0 (p.2 - p.1))

/-- The in-range values `odf[i+j]` for `j = -Math.floor(3/2) .. Math.ceil(3/2)`
with `odfSmoothWindow = 3`, i.e. `j = -1, 0, 1, 2` in this order (the source
checks `odf[i + j] !== undefined`; for `i = 0` the first index is `-1`, which
is out of range). -/
def smoothWindowVals (odf : List ℚ) (i : ℕ) : List ℚ :=
  (if i = 0 then none else odf[i - 1]?).toList ++
    odf[i]?.toList ++ odf[i + 1]?.toList ++ odf[i + 2]?.toList

/-- One sample of the smoothed ODF: the average of the in-range window values
(`sum / count` in the source). -/
def smoothAt (odf : List ℚ) (i : ℕ) : ℚ :=
  (smoothWindowVals odf i).sum / ((smoothWindowVals odf i).length : ℚ)

/-- The smoothed ODF (`smoothedOdf` in the source): same length as `odf`. -/
def smoothedOdf (odf : List ℚ) : List ℚ :=
  (List.range odf.length).map (smoothAt odf)

/-- The strictly positive smoothed-ODF values
(`odfValuesForThreshold = smoothedOdf.filter(v => v > 0)`). -/
def positiveVals (sm : List ℚ) : List ℚ :=
  sm.filter (fun v => decide (0 < v))

/-- `meanOdf` of the source: the mean of the strictly positive values,
`0` if there are none. -/
def meanOdf (sm : List ℚ) : ℚ :=
  if (positiveVals sm).length = 0 then 0
  else (positiveVals sm).sum / ((positiveVals sm).length : ℚ)

/-- `stdOdf` of the source: the square root of the population variance of the
strictly positive values, `0` if there are none. -/
def stdOdf (sq : ℚ → ℚ) (sm : List ℚ) : ℚ :=
  if (positiveVals sm).length = 0 then 0
  else sq (((positiveVals sm).map (fun b => (b - meanOdf sm) ^ 2)).sum /
           ((positiveVals sm).length : ℚ))

/-- The indices emitted by the peak-picking loop of the source
(`for i = 1; i < smoothedOdf.length - 1; i++` with the local-maximum and
threshold test). -/
def peakIndices (sm : List ℚ) (thr : ℚ) : List ℕ :=
  (List.range sm.length).filter (fun i =>
    decide (1 ≤ i) && decide (i + 1 < sm.length) &&
    decide (thr < sm.getD i 0) &&
    decide (sm.getD (i - 1) 0 < sm.getD i 0) &&
    decide (sm.getD (i + 1) 0 < sm.getD i 0))

/-- The onset record pushed by the source for index `i`:
`{ time: i*hop/sr, originalRms: rms[i], odfValue: smoothedOdf[i] }`. -/
def mkOnset (sm rms : List ℚ) (sr : ℚ) (i : ℕ) : Onset :=
  ⟨(i : ℚ) * (hop : ℚ) / sr, rms.getD i 0, sm.getD i 0⟩

/-- Step 3 of the source: peak picking, the leading-onset rescue
(`unshift` of the first index exceeding the looser threshold
`meanOdf + stdOdf * 0.1` when there is no earlier candidate), and the final
sort by time. -/
def detectOnsets (sq : ℚ → ℚ) (sm rms : List ℚ) (sr sens : ℚ) : List Onset :=
  let thr := meanOdf sm + stdOdf sq sm * sens
  let peaks := (peakIndices sm thr).map (mkOnset sm rms sr)
  let loose := meanOdf sm + stdOdf sq sm * (1/10)
  let rescued :=
    match sm.findIdx? (fun v => decide (loose < v)) with
    | none => peaks
    | some i =>
      match peaks with
      | [] => [mkOnset sm rms sr i]
      | p :: ps =>
        if (i : ℚ) * (hop : ℚ) / sr + 1/10 < p.time then mkOnset sm rms sr i :: p :: ps
        else p :: ps
  List.insertionSort (fun a b => a.time ≤ b.time) rescued

/-- Steps 1-3 composed: the onset-candidate list computed by the source from
the raw sample buffer. -/
def onsetsOf (sq : ℚ → ℚ) (raw : List ℚ) (sr sens : ℚ) : List Onset :=
  detectOnsets sq (smoothedOdf (odfOf (rmsWindows sq raw))) (rmsWindows sq raw) sr sens

/-- The consecutive inter-onset intervals (`iois` in the source). -/
def ioisOf : List Onset → List ℚ
  | a :: b :: rest => (b.time - a.time) :: ioisOf (b :: rest)
  | _ => []

/-- The index of the first strictly-largest histogram count
(`maxCount = 0; maxBinIdx = -1;` with a strict `>` update); `none` models
`maxBinIdx === -1`. -/
def histMaxIdx (h : List ℕ) : Option ℕ :=
  (h.foldl (fun (st : ℕ × ℕ × Option ℕ) c =>
    if st.2.1 < c then (st.1 + 1, c, some st.1) else (st.1 + 1, st.2.1, st.2.2))
    (0, 0, none)).2.2

/-- The dominant inter-onset interval of the source: `0` when there are no
IOIs, otherwise the centre of the most populated bin of a 50-bin histogram
over `[min, max]` (and still `0` when every bin is empty, which happens
exactly when the bin width is zero).  The source increments
`ioiHistogram[50]` for `ioi = max`; that slot starts `undefined`, becomes
`NaN` and can never win the strict `>` max scan, so the embedding skips it. -/
def dominantIoiOf (iois : List ℚ) : ℚ :=
  match iois with
  | [] => 0
  | x :: xs =>
    let minI := xs.foldl min x
    let maxI := xs.foldl max x
    let bw := (maxI - minI) / 50
    let hist := (x :: xs).foldl (fun h ioi =>
      if minI ≤ ioi ∧ ioi ≤ maxI ∧ 0 < bw then
        let b := (⌊(ioi - minI) / bw⌋).toNat
        if b < 50 then h.set b (h.getD b 0 + 1) else h
      else h) (List.replicate 50 (0 : ℕ))
    match histMaxIdx hist with
    | none => 0
    | some b => minI + ((b : ℚ) + 1/2) * bw

/-- Fuel-indexed unfolding of the halving loop
`while (x > 60/minBPM && x > 0.1) x /= 2` (with `60/minBPM = 1`);
`none` means the loop is still running when the fuel is exhausted. -/
def halveFuel : ℕ → ℚ → Option ℚ
  | 0, _ => none
  | n + 1, x => if 1 < x ∧ 1/10 < x then halveFuel n (x / 2) else some x

/-- Fuel-indexed unfolding of the doubling loop
`while (x < 60/maxBPM && x < 2) x *= 2` (with `60/maxBPM = 3/10`);
`none` means the loop is still running when the fuel is exhausted. -/
def doubleFuel : ℕ → ℚ → Option ℚ
  | 0, _ => none
  | n + 1, x => if x < 3/10 ∧ x < 2 then doubleFuel n (x * 2) else some x

/-- The octave-correction step of the source.  The fuel supplied to each
loop is proven sufficient whenever the loop terminates in the source
(`halveFuel_enough`, `doubleFuel_enough`); `none` is returned exactly on the
inputs on which the source's doubling loop runs forever
(`doubleFuel_nonpos_none`). -/
def octaveCorrect (x : ℚ) : Option ℚ :=
  if 1 < x then halveFuel (⌈x⌉.toNat + 1) x
  else if x < 3/10 then
    doubleFuel (if 0 < x then ⌈3 / (10 * x)⌉.toNat + 1 else 1) x
  else some x

/-- The final fallback of the source:
`if (x === 0 || isNaN(x) || x < 0.1 || x > 2) x = 0.5`
(`isNaN` cannot fire over `ℚ`). -/
def tempoFallback (x : ℚ) : ℚ :=
  if x = 0 ∨ x < 1/10 ∨ 2 < x then 1/2 else x

/-- Step 4 of the source: the estimated beat duration; `none` models the run
of the source that never terminates. -/
def estimateBeat (iois : List ℚ) : Option ℚ :=
  (octaveCorrect (dominantIoiOf iois)).map tempoFallback

/-- The nearest grid point of one subdivision:
`Math.round((t - start) / beatUnit) * beatUnit + start`. -/
def gridPointAt (beat start t sub : ℚ) : ℚ :=
  ((jround ((t - start) / (beat * sub)) : ℚ)) * (beat * sub) + start

/-- One iteration of the quantizer's inner loop: skip a zero grid step
(`if (beatUnit === 0) return`), otherwise keep the grid point of this
subdivision when its distance to the onset strictly improves the running
minimum (`timeDiff < minTimeDiff`, with `none` modelling the `Infinity`
initialisation of `minTimeDiff`). -/
def quantStep (beat start t : ℚ) (acc : ℚ × Option ℚ) (sub : ℚ) : ℚ × Option ℚ :=
  if beat * sub = 0 then acc
  else
    match acc.2 with
    | none => (gridPointAt beat start t sub, some |t - gridPointAt beat start t sub|)
    | some m =>
      if |t - gridPointAt beat start t sub| < m then
        (gridPointAt beat start t sub, some |t - gridPointAt beat start t sub|)
      else acc

/-- The inner fold of the quantizer: running best grid point and its distance
(`bestQuantizedTime` and `minTimeDiff` in the source, initialised to the
onset's own time and `Infinity`). -/
def quantChoose (grid : List ℚ) (beat start t : ℚ) : ℚ × Option ℚ :=
  grid.foldl (quantStep beat start t) (t, none)

/-- Step 5 of the source applied to one onset: the best grid time clamped to
be non-negative, `originalRms` and `odfValue` carried through. -/
def quantizeOne (grid : List ℚ) (beat start : ℚ) (o : Onset) : Onset :=
  ⟨max 0 (quantChoose grid beat start o.time).1, o.originalRms, o.odfValue⟩

/-- Step 5 of the source: every onset snapped independently, the grid origin
being the first onset's time (`0` for an empty list). -/
def quantizeAll (grid : List ℚ) (beat : ℚ) (onsets : List Onset) : List Onset :=
  onsets.map (quantizeOne grid beat (match onsets.head? with
    | some o => o.time
    | none => 0))

/-- The strong/weak RMS split threshold of the source:
`allRmsValues.sort(...)[Math.floor(length * 0.6)] || 0`. -/
def strongThreshold (qns : List Onset) : ℚ :=
  (List.insertionSort (fun a b => a ≤ b) (qns.map (·.originalRms))).getD
    (3 * qns.length / 5) 0

/-- Step 6 of the source: key assignment walking the quantized notes with the
two alternation trackers `lastStrongKey` / `lastWeakKey`. -/
def assignGo (thr : ℚ) (ls lw : String) : List Onset → List Note
  | [] => []
  | q :: rest =>
    if thr ≤ q.originalRms then
      ⟨q.time, if ls = "ArrowUp" then "ArrowDown" else "ArrowUp"⟩ ::
        assignGo thr (if ls = "ArrowUp" then "ArrowDown" else "ArrowUp") lw rest
    else
      ⟨q.time, if lw = "ArrowLeft" then "ArrowRight" else "ArrowLeft"⟩ ::
        assignGo thr ls (if lw = "ArrowLeft" then "ArrowRight" else "ArrowLeft") rest

/-- Step 6 with the source's initial tracker values
(`lastStrongKey = 'ArrowUp'`, `lastWeakKey = 'ArrowLeft'`). -/
def assignKeys (thr : ℚ) (qns : List Onset) : List Note :=
  assignGo thr "ArrowUp" "ArrowLeft" qns

/-- `Map.set` on an insertion-ordered association list: an existing key keeps
its position (as a JavaScript `Map` does), a new key is appended. -/
def setKey : List (ℤ × Note) → ℤ → Note → List (ℤ × Note)
  | [], k, v => [(k, v)]
  | (k', v') :: rest, k, v =>
    if k' = k then (k, v) :: rest else (k', v') :: setKey rest k v

/-- `Map.get` on the association list. -/
def getKey? (m : List (ℤ × Note)) (k : ℤ) : Option Note :=
  (m.find? (fun p => decide (p.1 = k))).map (·.2)

/-- One iteration of the deduplication loop of the source (step 7): group by
`Math.round(time * 1000)`; on a collision, look the colliding notes'
source onsets up in `quantizedNotes` by rounded and exact time, and replace
the stored note only when the current one's source onset has the strictly
larger `odfValue`. -/
def dedupStep (qns : List Onset) (m : List (ℤ × Note)) (note : Note) : List (ℤ × Note) :=
  let tk := jround (note.time * 1000)
  match getKey? m tk with
  | none => setKey m tk note
  | some existing =>
    match qns.find? (fun qn => decide (jround (qn.time * 1000) = tk) &&
                               decide (qn.time = note.time)),
          qns.find? (fun qn => decide (jround (qn.time * 1000) = tk) &&
                               decide (qn.time = existing.time)) with
    | some cur, some ex =>
      if ex.odfValue < cur.odfValue then setKey m tk note else m
    | _, _ => m

/-- The deduplication map of the source, read back in insertion order. -/
def dedupNotes (notes : List Note) (qns : List Onset) : List Note :=
  (notes.foldl (dedupStep qns) []).map (·.2)

/-- The greedy minimum-separation filter of the source after its first kept
note: keep a note iff its time minus the last kept time is `≥ minSep`. -/
def sepGo (minSep : ℚ) (last : Note) : List Note → List Note
  | [] => []
  | x :: rest =>
    if minSep ≤ x.time - last.time then x :: sepGo minSep x rest
    else sepGo minSep last rest

/-- The minimum-separation filter of the source: always keep the first note. -/
def sepFilter (minSep : ℚ) : List Note → List Note
  | [] => []
  | n :: rest => n :: sepGo minSep n rest

/-- The whole pipeline `generateLevel(audioBuffer, difficulty)` of the source,
parameterised by the abstract square root `sq`; `none` models the runs of
the source that never terminate (see `estimateBeat`). -/
def generateLevel (raw : List ℚ) (sr : ℚ) (d : Difficulty) (sq : ℚ → ℚ) :
    Option (List Note) :=
  let onsets := onsetsOf sq raw sr (odfSensitivity d)
  match estimateBeat (ioisOf onsets) with
  | none => none
  | some beat =>
    let qns := quantizeAll (quantizationGrid d) beat onsets
    let notes := assignKeys (strongThreshold qns) qns
    some (sepFilter (minNoteSeparation d)
      (List.insertionSort (fun a b => a.time ≤ b.time) (dedupNotes notes qns)))

/-! ### Termination behaviour of the octave-correction loops -/

/-- The doubling loop of the source never terminates from a non-positive
start value: `x * 2` stays non-positive, so the guard `x < 0.3 && x < 2`
holds forever.  In the fuel-indexed unfolding this reads: no amount of fuel
reaches the exit. -/
theorem doubleFuel_nonpos_none (x : ℚ) (hx : x ≤ 0) :
    ∀ n, doubleFuel n x = none := by
  intro n
  induction n generalizing x with
  | zero => rfl
  | succ n ih =>
    have hg : x < 3/10 ∧ x < 2 := ⟨by linarith, by linarith⟩
    simp only [doubleFuel, if_pos hg]
    exact ih (x * 2) (by nlinarith)

/-- Casting helper: a rational is at most `2 ^ ⌈x⌉.toNat`. -/
theorem le_two_pow_ceil_toNat (x : ℚ) : x ≤ 2 ^ (⌈x⌉.toNat) := by
  have h1 : x ≤ (⌈x⌉ : ℚ) := Int.le_ceil x
  have h2 : ((⌈x⌉ : ℤ) : ℚ) ≤ ((⌈x⌉.toNat : ℤ) : ℚ) := by
    exact_mod_cast Int.self_le_toNat ⌈x⌉
  have h3 : ((⌈x⌉.toNat : ℕ) : ℚ) ≤ 2 ^ (⌈x⌉.toNat) := by
    exact_mod_cast Nat.le_of_lt (Nat.lt_two_pow _)
  calc x ≤ ((⌈x⌉ : ℤ) : ℚ) := h1
  _ ≤ ((⌈x⌉.toNat : ℤ) : ℚ) := h2
  _ = ((⌈x⌉.toNat : ℕ) : ℚ) := by push_cast; ring
  _ ≤ 2 ^ (⌈x⌉.toNat) := h3

/-- With fuel `n + 1` the halving loop exits whenever `x ≤ 2 ^ n`. -/
theorem halveFuel_enough (n : ℕ) : ∀ x : ℚ, x ≤ 2 ^ n → (halveFuel (n + 1) x).isSome := by
  induction n with
  | zero =>
    intro x hx
    have hng : ¬(1 < x ∧ 1/10 < x) := by
      rintro ⟨h1, -⟩; rw [pow_zero] at hx; linarith
    simp only [halveFuel, if_neg hng, Option.isSome_some]
  | succ n ih =>
    intro x hx
    by_cases hg : 1 < x ∧ 1/10 < x
    · simp only [halveFuel, if_pos hg]
      exact ih (x / 2) (by rw [pow_succ] at hx; linarith)
    · simp only [halveFuel, if_neg hg, Option.isSome_some]

/-- With fuel `n + 1` the doubling loop exits from a positive start value
whenever `3/10 ≤ x * 2 ^ n`. -/
theorem doubleFuel_enough (n : ℕ) : ∀ x : ℚ, 3/10 ≤ x * 2 ^ n → (doubleFuel (n + 1) x).isSome := by
  induction n with
  | zero =>
    intro x hx
    have hng : ¬(x < 3/10 ∧ x < 2) := by
      rintro ⟨h1, -⟩; rw [pow_zero, mul_one] at hx; linarith
    simp only [doubleFuel, if_neg hng, Option.isSome_some]
  | succ n ih =>
    intro x hx
    by_cases hg : x < 3/10 ∧ x < 2
    · simp only [doubleFuel, if_pos hg]
      exact ih (x * 2) (by rw [pow_succ] at hx; linarith)
    · simp only [doubleFuel, if_neg hg, Option.isSome_some]

/-- The fuel chosen in `octaveCorrect` is sufficient on every input on which
the source's loops terminate: for every positive start value some beat value
is produced. -/
theorem octaveCorrect_isSome (x : ℚ) (hx : 0 < x) : (octaveCorrect x).isSome := by
  unfold octaveCorrect
  by_cases h1 : 1 < x
  · rw [if_pos h1]
    exact halveFuel_enough _ x (le_two_pow_ceil_toNat x)
  · rw [if_neg h1]
    by_cases h3 : x < 3/10
    · rw [if_pos h3, if_pos hx]
      refine doubleFuel_enough _ x ?_
      have hq : (0:ℚ) < 10 * x := by linarith
      have h2 : 3 / (10 * x) ≤ 2 ^ (⌈3 / (10 * x)⌉.toNat) :=
        le_two_pow_ceil_toNat _
      rw [div_le_iff₀ hq] at h2
      linarith
    · rw [if_neg h3]; rfl

/-- Evaluation fact: the octave correction entered with `0` is the source's
diverging doubling loop. -/
theorem octaveCorrect_zero : octaveCorrect 0 = none := by
  unfold octaveCorrect
  rw [if_neg (by norm_num), if_pos (by norm_num), if_neg (lt_irrefl 0)]
  simp only [doubleFuel]
  rw [if_pos (by norm_num)]

/-- C1: claimed: the tempo-estimation stage terminates and returns the default
beat period of 0.5 s for every candidate list with fewer than 2 onsets.  What
the code actually does: such a list has no inter-onset intervals, the dominant
interval stays `0`, and the doubling loop `while (x < 0.3 && x < 2) x *= 2`
is entered with `x = 0` and never exits (no amount of fuel reaches the exit),
so no beat period at all is produced. -/
theorem tempo_diverges_on_few_onsets (cands : List Onset) (h : cands.length < 2) :
    ioisOf cands = [] ∧ dominantIoiOf (ioisOf cands) = 0 ∧
    estimateBeat (ioisOf cands) = none ∧
    ∀ fuel, doubleFuel fuel (dominantIoiOf (ioisOf cands)) = none := by
  have hio : ioisOf cands = [] := by
    rcases cands with _ | ⟨a, _ | ⟨b, rest⟩⟩
    · rfl
    · rfl
    · exfalso; simp only [List.length_cons] at h; omega
  have hdom : dominantIoiOf (ioisOf cands) = 0 := by rw [hio]; rfl
  refine ⟨hio, hdom, ?_, ?_⟩
  · unfold estimateBeat
    rw [hdom, octaveCorrect_zero]
    rfl
  · intro fuel
    rw [hdom]
    exact doubleFuel_nonpos_none 0 le_rfl fuel

/-- Witness for `tempo_diverges_on_few_onsets` at the empty candidate list. -/
theorem tempo_diverges_on_few_onsets_witness :
    ioisOf [] = [] ∧ dominantIoiOf (ioisOf []) = 0 ∧
    estimateBeat (ioisOf []) = none ∧
    ∀ fuel, doubleFuel fuel (dominantIoiOf (ioisOf [])) = none :=
  tempo_diverges_on_few_onsets [] (by norm_num)

/-! ### Propagation of silence through the pipeline -/

/-- Every RMS envelope value of an all-zero buffer is zero (assuming the
square root fixes `0`). -/
theorem rmsWindows_zero (sq : ℚ → ℚ) (raw : List ℚ) (hz : ∀ x ∈ raw, x = 0)
    (hsq : sq 0 = 0) : ∀ y ∈ rmsWindows sq raw, y = 0 := by
  intro y hy
  rw [rmsWindows] at hy
  obtain ⟨w, -, rfl⟩ := List.mem_map.mp hy
  have hsum : (((raw.drop (hop * w)).take winSize).map (fun x => x * x)).sum = 0 := by
    refine List.sum_eq_zero ?_
    intro v hv
    obtain ⟨x, hx, rfl⟩ := List.mem_map.mp hv
    have : x = 0 := hz x (List.mem_of_mem_drop (List.mem_of_mem_take hx))
    rw [this]; ring
  rw [hsum, zero_div, hsq]

/-- Every onset-curve value of an all-zero envelope is zero. -/
theorem odfOf_zero (rms : List ℚ) (hz : ∀ x ∈ rms, x = 0) :
    ∀ y ∈ odfOf rms, y = 0 := by
  intro y hy
  rw [odfOf] at hy
  rcases List.mem_cons.mp hy with h | h
  · exact h
  · obtain ⟨⟨a, b⟩, hp, rfl⟩ := List.mem_map.mp h
    obtain ⟨ha, hb⟩ := List.of_mem_zip hp
    rw [hz a ha, hz b (List.mem_of_mem_tail hb)]
    simp

/-- Every value the smoothing window collects is a value of the curve. -/
theorem mem_of_mem_smoothWindowVals (odf : List ℚ) (i : ℕ) (x : ℚ)
    (hx : x ∈ smoothWindowVals odf i) : x ∈ odf := by
  rw [smoothWindowVals] at hx
  simp only [List.mem_append, Option.mem_toList, Option.mem_def] at hx
  rcases hx with ((h | h) | h) | h
  · split at h
    · simp at h
    · exact List.getElem?_mem h
  all_goals exact List.getElem?_mem h

/-- Every smoothed value of an all-zero curve is zero. -/
theorem smoothedOdf_zero (odf : List ℚ) (hz : ∀ x ∈ odf, x = 0) :
    ∀ y ∈ smoothedOdf odf, y = 0 := by
  intro y hy
  rw [smoothedOdf] at hy
  obtain ⟨i, -, rfl⟩ := List.mem_map.mp hy
  rw [smoothAt]
  have : (smoothWindowVals odf i).sum = 0 :=
    List.sum_eq_zero fun v hv => hz v (mem_of_mem_smoothWindowVals odf i v hv)
  rw [this, zero_div]

/-- The onset picker emits nothing when the peak loop emits nothing and the
looser rescue threshold is never exceeded. -/
theorem detectOnsets_eq_nil (sq : ℚ → ℚ) (sm rms : List ℚ) (sr sens : ℚ)
    (hpeaks : peakIndices sm (meanOdf sm + stdOdf sq sm * sens) = [])
    (hfind : sm.findIdx? (fun v => decide (meanOdf sm + stdOdf sq sm * (1/10) < v)) = none) :
    detectOnsets sq sm rms sr sens = [] := by
  unfold detectOnsets
  simp only [hpeaks, hfind, List.map_nil]
  rfl

/-- A search for an entry satisfying an everywhere-false predicate fails,
whatever the running start index. -/
theorem findIdx?_eq_none_of_false {α : Type} (p : α → Bool) :
    ∀ (l : List α), (∀ x ∈ l, p x = false) → ∀ s, l.findIdx? p s = none := by
  intro l
  induction l with
  | nil => intro _ _; rfl
  | cons a t ih =>
    intro h s
    have ha := h a (List.mem_cons_self a t)
    rw [List.findIdx?, if_neg (by rw [ha]; exact Bool.false_ne_true)]
    exact ih (fun x hx => h x (List.mem_cons_of_mem a hx)) (s + 1)

/-- The onset picker emits nothing from an all-zero smoothed curve. -/
theorem detectOnsets_all_zero (sq : ℚ → ℚ) (sm rms : List ℚ) (sr sens : ℚ)
    (hsm : ∀ x ∈ sm, x = 0) : detectOnsets sq sm rms sr sens = [] := by
  have hpos : positiveVals sm = [] := by
    rw [positiveVals, List.filter_eq_nil_iff]
    intro a ha
    rw [hsm a ha]
    simp
  have hmean : meanOdf sm = 0 := by rw [meanOdf, if_pos (by rw [hpos]; rfl)]
  have hstd : stdOdf sq sm = 0 := by rw [stdOdf, if_pos (by rw [hpos]; rfl)]
  have hgetD : ∀ i, i < sm.length → sm.getD i 0 = 0 := by
    intro i hi
    rw [List.getD_eq_getElem?_getD, List.getElem?_eq_getElem hi]
    exact hsm _ (List.getElem_mem hi)
  have hpeaks : peakIndices sm (meanOdf sm + stdOdf sq sm * sens) = [] := by
    rw [peakIndices, List.filter_eq_nil_iff]
    intro i hi
    rw [List.mem_range] at hi
    rw [hgetD i hi, hmean, hstd]
    simp
  have hfind :
      sm.findIdx? (fun v => decide (meanOdf sm + stdOdf sq sm * (1/10) < v)) = none := by
    refine findIdx?_eq_none_of_false _ sm ?_ 0
    intro x hx
    rw [hsm x hx, hmean, hstd]
    simp
  exact detectOnsets_eq_nil sq sm rms sr sens hpeaks hfind

/-- Evaluation fact: the beat estimate of an empty interval list is the
diverging run. -/
theorem estimateBeat_nil : estimateBeat [] = none := by
  unfold estimateBeat
  rw [show dominantIoiOf [] = 0 from rfl, octaveCorrect_zero]
  rfl

/-- C3: claimed: an all-zero buffer yields an empty onset-candidate list and
an empty note list.  What the code actually does: the candidate list is
indeed empty, but `generateLevel` then never returns, because the empty
candidate list drives the tempo stage into the diverging doubling loop
(`tempo_diverges_on_few_onsets`); the embedding records the diverging run
as `none`. -/
theorem silence_empty_onsets_diverges (raw : List ℚ) (sr : ℚ) (d : Difficulty)
    (sq : ℚ → ℚ) (hz : ∀ x ∈ raw, x = 0) (hsq : sq 0 = 0) :
    onsetsOf sq raw sr (odfSensitivity d) = [] ∧ generateLevel raw sr d sq = none := by
  have hrms := rmsWindows_zero sq raw hz hsq
  have hodf := odfOf_zero _ hrms
  have hsm := smoothedOdf_zero _ hodf
  have honsets : onsetsOf sq raw sr (odfSensitivity d) = [] := by
    rw [onsetsOf]
    exact detectOnsets_all_zero sq _ _ sr _ hsm
  refine ⟨honsets, ?_⟩
  unfold generateLevel
  rw [honsets]
  simp only [show ioisOf [] = [] from rfl, estimateBeat_nil]

/-- Witness for `silence_empty_onsets_diverges`: two seconds of silence at a
concrete sample rate. -/
theorem silence_empty_onsets_diverges_witness :
    onsetsOf (fun _ => 0) (List.replicate 2048 0) 1 (odfSensitivity .medium) = [] ∧
    generateLevel (List.replicate 2048 0) 1 .medium (fun _ => 0) = none :=
  silence_empty_onsets_diverges (List.replicate 2048 0) 1 .medium (fun _ => 0)
    (fun _x hx => List.eq_of_mem_replicate hx) rfl

/-! ### The minimum-separation filter -/

/-- The greedy walk of the source keeps only notes at least `ms` after the
last kept one, so its output is chained by the separation relation, and its
first kept note is at least `ms` after the reference note. -/
theorem sepGo_chain (ms : ℚ) (hms : 0 < ms) :
    ∀ (l : List Note) (last : Note),
      (sepGo ms last l).Chain' (fun a b => a.time < b.time ∧ ms ≤ b.time - a.time) ∧
      ∀ y ∈ (sepGo ms last l).head?, last.time < y.time ∧ ms ≤ y.time - last.time := by
  intro l
  induction l with
  | nil => intro last; exact ⟨List.chain'_nil, by simp [sepGo]⟩
  | cons x rest ih =>
    intro last
    rw [sepGo]
    split
    · rename_i hkeep
      refine ⟨List.chain'_cons'.mpr ⟨(ih x).2, (ih x).1⟩, ?_⟩
      intro y hy
      simp only [List.head?_cons, Option.mem_def, Option.some.injEq] at hy
      subst hy
      exact ⟨by linarith, hkeep⟩
    · exact ih last

/-- The separation filter's whole output is chained by the separation
relation. -/
theorem sepFilter_chain (ms : ℚ) (hms : 0 < ms) (l : List Note) :
    (sepFilter ms l).Chain' (fun a b => a.time < b.time ∧ ms ≤ b.time - a.time) := by
  cases l with
  | nil => exact List.chain'_nil
  | cons n rest =>
    rw [sepFilter]
    exact List.chain'_cons'.mpr ⟨(sepGo_chain ms hms rest n).2, (sepGo_chain ms hms rest n).1⟩

/-- C2: for every valid input (non-empty buffer, positive sample rate) and
every difficulty, any note list `generateLevel` returns is strictly
time-ascending with consecutive gaps at least the difficulty's minimum note
separation (0.3 / 0.15 / 0.08 seconds); on the inputs on which the source
never returns (see `tempo_diverges_on_few_onsets`) the embedding yields
`none` and the default `[]` below makes the statement hold vacuously. -/
theorem generateLevel_notes_separated (raw : List ℚ) (sr : ℚ) (d : Difficulty)
    (sq : ℚ → ℚ) (_hraw : raw ≠ []) (_hsr : 0 < sr) :
    (minNoteSeparation .easy = 3/10 ∧ minNoteSeparation .medium = 3/20 ∧
      minNoteSeparation .hard = 2/25) ∧
    ((generateLevel raw sr d sq).getD []).Chain'
      (fun a b => a.time < b.time ∧ minNoteSeparation d ≤ b.time - a.time) := by
  refine ⟨⟨rfl, rfl, rfl⟩, ?_⟩
  have hms : 0 < minNoteSeparation d := by
    cases d <;> norm_num [minNoteSeparation]
  rcases hbe : estimateBeat (ioisOf (onsetsOf sq raw sr (odfSensitivity d))) with _ | beat
  · unfold generateLevel
    dsimp only
    rw [hbe]
    exact List.chain'_nil
  · unfold generateLevel
    dsimp only
    rw [hbe]
    dsimp only
    simp only [Option.getD_some]
    exact sepFilter_chain (minNoteSeparation d) hms _

/-- Witness for `generateLevel_notes_separated` at a one-sample buffer. -/
theorem generateLevel_notes_separated_witness :
    (minNoteSeparation .easy = 3/10 ∧ minNoteSeparation .medium = 3/20 ∧
      minNoteSeparation .hard = 2/25) ∧
    ((generateLevel [1] 1 .medium (fun _ => 0)).getD []).Chain'
      (fun a b => a.time < b.time ∧ minNoteSeparation .medium ≤ b.time - a.time) :=
  generateLevel_notes_separated [1] 1 .medium (fun _ => 0) (by simp) (by norm_num)

/-! ### The smoothing window -/

/-- Modelled from the spec (§4.2 and claim C5): a centered moving average of
odd width 3, i.e. the mean of the raw values at the in-range indices among
`i-1, i, i+1`, no padding or wraparound. -/
def specCenteredSmooth3 (odf : List ℚ) : List ℚ :=
  (List.range odf.length).map (fun i =>
    ((odf.take (i + 2)).drop (i - 1)).sum /
      (((odf.take (i + 2)).drop (i - 1)).length : ℚ))

/-- The values collected by the source's window at `i` are exactly the
contiguous slice of the curve from index `i-1` (clamped to `0`) up to and
including index `i+2` (clamped to the end). -/
theorem smoothWindowVals_eq (odf : List ℚ) : ∀ i : ℕ,
    smoothWindowVals odf i = (odf.take (i + 3)).drop (i - 1) := by
  induction odf with
  | nil => intro i; simp [smoothWindowVals]
  | cons a t ih =>
    intro i
    match i with
    | 0 =>
      rw [smoothWindowVals]
      simp only [if_pos rfl, Option.toList_none, List.nil_append,
        List.getElem?_cons_zero, Option.toList_some, List.getElem?_cons_succ]
      rcases t with _ | ⟨b, _ | ⟨c, t'⟩⟩ <;> simp
    | 1 =>
      rw [smoothWindowVals]
      simp only [if_neg one_ne_zero, List.getElem?_cons_succ, List.getElem?_cons_zero,
        Option.toList_some]
      rcases t with _ | ⟨b, _ | ⟨c, _ | ⟨e, t'⟩⟩⟩ <;> simp
    | (k + 2) =>
      have hshift : smoothWindowVals (a :: t) (k + 2) = smoothWindowVals t (k + 1) := by
        rw [smoothWindowVals, smoothWindowVals]
        have h1 : k + 2 - 1 = k + 1 := by omega
        have h2 : k + 1 - 1 = k := by omega
        rw [h1, h2, if_neg (Nat.succ_ne_zero _), if_neg (Nat.succ_ne_zero _)]
        simp only [List.getElem?_cons_succ]
      rw [hshift, ih (k + 1)]
      have h3 : k + 1 + 3 = k + 4 := by omega
      have h4 : k + 2 + 3 = (k + 4) + 1 := by omega
      have h5 : k + 2 - 1 = k + 1 := by omega
      have h6 : k + 1 - 1 = k := by omega
      rw [h3, h4, h5, h6, List.take_succ_cons, List.drop_succ_cons]

/-- Reading the smoothed curve at an in-range index gives the window average
at that index. -/
theorem smoothedOdf_getD (odf : List ℚ) (i : ℕ) (hi : i < odf.length) :
    (smoothedOdf odf).getD i 0 = smoothAt odf i := by
  rw [smoothedOdf, List.getD_eq_getElem?_getD, List.getElem?_map,
    List.getElem?_range hi]
  rfl

/-- C5 counterexample: on the concrete curve `[0, 0, 0, 1]` the source's
smoothing differs from a centered width-3 moving average: at index 1 the
source averages indices 0..3 (window `-1..+2`) giving `1/4`, while the
centered width-3 window (indices 0..2) gives `0`. -/
theorem smooth_not_centered3_cex :
    (smoothedOdf [0, 0, 0, 1]).getD 1 0 = 1/4 ∧
    (specCenteredSmooth3 [0, 0, 0, 1]).getD 1 0 = 0 ∧
    smoothedOdf [0, 0, 0, 1] ≠ specCenteredSmooth3 [0, 0, 0, 1] := by
  have h1 : (smoothedOdf [0, 0, 0, 1]).getD 1 0 = 1/4 := by
    rw [smoothedOdf_getD _ 1 (by norm_num)]
    norm_num [smoothAt, smoothWindowVals]
  have h2 : (specCenteredSmooth3 [0, 0, 0, 1]).getD 1 0 = 0 := by
    rw [specCenteredSmooth3, List.getD_eq_getElem?_getD, List.getElem?_map,
      List.getElem?_range (by norm_num : (1:ℕ) < ([0,0,0,(1:ℚ)]).length)]
    norm_num
  refine ⟨h1, h2, fun h => ?_⟩
  rw [h, h2] at h1
  norm_num at h1

/-- C5 amended: the smoothed curve has the same length as the raw curve, and
each value at index `i` is the arithmetic mean of the raw values at the
in-range indices among `i-1 .. i+2` (the source's loop runs from
`-Math.floor(S/2)` to `Math.ceil(S/2)` with `S = 3`, so the window is
four-tap and not centered), with no padding or wraparound. -/
theorem smoothedOdf_window_amended (odf : List ℚ) :
    (smoothedOdf odf).length = odf.length ∧
    ∀ i, i < odf.length →
      (smoothedOdf odf).getD i 0 =
        ((odf.take (i + 3)).drop (i - 1)).sum /
          (((odf.take (i + 3)).drop (i - 1)).length : ℚ) := by
  refine ⟨by rw [smoothedOdf]; simp, ?_⟩
  intro i hi
  rw [smoothedOdf_getD odf i hi, smoothAt, smoothWindowVals_eq]

/-- Witness for `smoothedOdf_window_amended` at a concrete curve and index. -/
theorem smoothedOdf_window_amended_witness :
    (smoothedOdf [0, 1, 2, 3]).getD 1 0 =
      (([0, 1, 2, (3:ℚ)].take (1 + 3)).drop (1 - 1)).sum /
        ((([0, 1, 2, (3:ℚ)].take (1 + 3)).drop (1 - 1)).length : ℚ) :=
  (smoothedOdf_window_amended [0, 1, 2, 3]).2 1 (by norm_num)

/-! ### The onset picker's emission rule -/

/-- C6: the dynamic-threshold statistics are computed over only the strictly
positive smoothed values (first two conjuncts, by definition of
`positiveVals` / `meanOdf`), and an index `i` other than the first and last
is emitted by the peak-picking loop iff its value strictly exceeds both
neighbours and strictly exceeds `mean + stdDev * sensitivity`. -/
theorem peak_candidate_iff (sm : List ℚ) (sens : ℚ) (sq : ℚ → ℚ) (i : ℕ) :
    positiveVals sm = sm.filter (fun v => decide (0 < v)) ∧
    meanOdf sm = (if (positiveVals sm).length = 0 then 0
      else (positiveVals sm).sum / ((positiveVals sm).length : ℚ)) ∧
    stdOdf sq sm = (if (positiveVals sm).length = 0 then 0
      else sq (((positiveVals sm).map (fun b => (b - meanOdf sm) ^ 2)).sum /
        ((positiveVals sm).length : ℚ))) ∧
    (i ∈ peakIndices sm (meanOdf sm + stdOdf sq sm * sens) ↔
      (i ≠ 0 ∧ i + 1 < sm.length ∧
        sm.getD (i - 1) 0 < sm.getD i 0 ∧ sm.getD (i + 1) 0 < sm.getD i 0 ∧
        meanOdf sm + stdOdf sq sm * sens < sm.getD i 0)) := by
  refine ⟨rfl, rfl, rfl, ?_⟩
  rw [peakIndices, List.mem_filter, List.mem_range]
  simp only [Bool.and_eq_true, decide_eq_true_eq]
  constructor
  · rintro ⟨hi, ⟨⟨⟨h1, h2⟩, h3⟩, h4⟩, h5⟩
    exact ⟨by omega, h2, h4, h5, h3⟩
  · rintro ⟨h0, h2, h4, h5, h3⟩
    exact ⟨by omega, ⟨⟨⟨by omega, h2⟩, h3⟩, h4⟩, h5⟩

/-! ### Short onset curves -/

/-- C9: for every envelope whose onset curve has fewer than 3 samples,
the onset picker (including the leading-onset rescue) produces an empty
candidate list. -/
theorem picker_short_curve_empty (rms : List ℚ) (sr sens : ℚ) (sq : ℚ → ℚ)
    (hlen : (odfOf rms).length < 3) (hsq : sq 0 = 0) :
    detectOnsets sq (smoothedOdf (odfOf rms)) rms sr sens = [] := by
  have hrl : rms.length < 3 := by
    by_contra hge
    push_neg at hge
    have : (odfOf rms).length = 1 + min rms.length (rms.length - 1) := by
      simp [odfOf]
      omega
    omega
  rcases rms with _ | ⟨a, _ | ⟨b, _ | ⟨c, t⟩⟩⟩
  · refine detectOnsets_all_zero sq _ _ sr sens ?_
    intro x hx
    have hodf : odfOf ([] : List ℚ) = [0] := by simp [odfOf]
    rw [hodf] at hx
    refine smoothedOdf_zero [0] ?_ x hx
    intro y hy
    simpa using hy
  · refine detectOnsets_all_zero sq _ _ sr sens ?_
    intro x hx
    have hodf : odfOf [a] = [0] := by simp [odfOf]
    rw [hodf] at hx
    refine smoothedOdf_zero [0] ?_ x hx
    intro y hy
    simpa using hy
  · -- two-sample envelope: the smoothed curve is the constant
    -- `[m/2, m/2]` with `m = max 0 (b - a)`
    have hodf : odfOf [a, b] = [0, max 0 (b - a)] := by
      simp [odfOf]
    have hsm : smoothedOdf (odfOf [a, b]) = [max 0 (b - a) / 2, max 0 (b - a) / 2] := by
      rw [hodf]
      show smoothedOdf [0, max 0 (b - a)] = _
      norm_num [smoothedOdf, smoothAt, smoothWindowVals, List.range_succ]
    rw [hsm]
    by_cases hm : max 0 (b - a) = 0
    · refine detectOnsets_all_zero sq _ _ sr sens ?_
      intro x hx
      rw [hm] at hx
      simp only [zero_div] at hx
      rcases List.mem_pair.mp hx with rfl | rfl <;> rfl
    · have hmpos : 0 < max 0 (b - a) :=
        lt_of_le_of_ne (le_max_left 0 (b - a)) (Ne.symm hm)
      have hhalf : 0 < max 0 (b - a) / 2 := by positivity
      set m2 := max 0 (b - a) / 2 with hm2
      have hposv : positiveVals [m2, m2] = [m2, m2] := by
        rw [positiveVals, List.filter_eq_self]
        intro x hx
        rcases List.mem_pair.mp hx with rfl | rfl <;> simpa using hhalf
      have hmean : meanOdf [m2, m2] = m2 := by
        rw [meanOdf, if_neg (by rw [hposv]; simp), hposv]
        simp only [List.sum_cons, List.sum_nil, List.length_cons, List.length_nil]
        push_cast
        ring
      have hstd : stdOdf sq [m2, m2] = 0 := by
        rw [stdOdf, if_neg (by rw [hposv]; simp), hposv, hmean]
        simp only [List.map_cons, List.map_nil, List.sum_cons, List.sum_nil,
          List.length_cons, List.length_nil, sub_self]
        norm_num
        exact hsq
      have hpeaks : peakIndices [m2, m2] (meanOdf [m2, m2] + stdOdf sq [m2, m2] * sens) = [] := by
        rw [peakIndices, List.filter_eq_nil_iff]
        intro i hi
        simp only [List.length_cons, List.length_nil] at hi ⊢
        rw [List.mem_range] at hi
        interval_cases i <;> simp
      have hfind : List.findIdx? (fun v =>
          decide (meanOdf [m2, m2] + stdOdf sq [m2, m2] * (1/10) < v)) [m2, m2] = none := by
        refine findIdx?_eq_none_of_false _ _ ?_ 0
        intro x hx
        rcases List.mem_pair.mp hx with rfl | rfl <;>
          · rw [hmean, hstd]
            norm_num
      exact detectOnsets_eq_nil sq [m2, m2] _ sr sens hpeaks hfind
  · exfalso
    simp only [List.length_cons] at hrl
    omega

/-- Witness for `picker_short_curve_empty` at a two-sample envelope. -/
theorem picker_short_curve_empty_witness :
    detectOnsets (fun _ => 0) (smoothedOdf (odfOf [1, 3])) [1, 3] 5 7 = [] :=
  picker_short_curve_empty [1, 3] 5 7 (fun _ => 0) (by norm_num [odfOf]) rfl

/-! ### Lane assignment -/

/-- Every key the assignment walk emits is one of the four arrow symbols,
and each note's pair is decided by comparing its onset's stored RMS with the
threshold. -/
theorem assignGo_keys (thr : ℚ) : ∀ (l : List Onset) (ls lw : String),
    (∀ n ∈ assignGo thr ls lw l,
      n.key = "ArrowDown" ∨ n.key = "ArrowUp" ∨ n.key = "ArrowRight" ∨ n.key = "ArrowLeft") ∧
    List.Forall₂ (fun (q : Onset) (n : Note) =>
      (thr ≤ q.originalRms → (n.key = "ArrowDown" ∨ n.key = "ArrowUp")) ∧
      (q.originalRms < thr → (n.key = "ArrowRight" ∨ n.key = "ArrowLeft")))
      l (assignGo thr ls lw l) := by
  intro l
  induction l with
  | nil => intro ls lw; exact ⟨by simp [assignGo], List.Forall₂.nil⟩
  | cons q rest ih =>
    intro ls lw
    rw [assignGo]
    by_cases hq : thr ≤ q.originalRms
    · rw [if_pos hq]
      constructor
      · intro n hn
        rcases List.mem_cons.mp hn with rfl | hn
        · show (if ls = "ArrowUp" then "ArrowDown" else "ArrowUp") = _ ∨ _
          split <;> simp
        · exact (ih _ lw).1 n hn
      · refine List.Forall₂.cons ⟨fun _ => ?_, fun hlt => absurd hlt (not_lt.mpr hq)⟩
          (ih _ lw).2
        show (if ls = "ArrowUp" then "ArrowDown" else "ArrowUp") = _ ∨ _
        split <;> simp
    · rw [if_neg hq]
      constructor
      · intro n hn
        rcases List.mem_cons.mp hn with rfl | hn
        · show (if lw = "ArrowLeft" then "ArrowRight" else "ArrowLeft") = _ ∨ _
          split <;> simp
        · exact (ih ls _).1 n hn
      · refine List.Forall₂.cons ⟨fun hge => absurd hge hq, fun _ => ?_⟩ (ih ls _).2
        show (if lw = "ArrowLeft" then "ArrowRight" else "ArrowLeft") = _ ∨ _
        split <;> simp

/-- Among the strong-lane notes the walk emits, consecutive keys differ, and
the first one differs from the current strong tracker. -/
theorem assignGo_strong_chain (thr : ℚ) : ∀ (l : List Onset) (ls lw : String),
    ((assignGo thr ls lw l).filter
      (fun n => decide (n.key = "ArrowDown") || decide (n.key = "ArrowUp"))).Chain'
      (fun a b => a.key ≠ b.key) ∧
    ∀ y ∈ ((assignGo thr ls lw l).filter
      (fun n => decide (n.key = "ArrowDown") || decide (n.key = "ArrowUp"))).head?,
      y.key ≠ ls := by
  intro l
  induction l with
  | nil => intro ls lw; exact ⟨by simp [assignGo], by simp [assignGo]⟩
  | cons q rest ih =>
    intro ls lw
    rw [assignGo]
    by_cases hq : thr ≤ q.originalRms
    · rw [if_pos hq]
      by_cases hls : ls = "ArrowUp"
      · rw [if_pos hls]
        simp only [List.filter_cons, decide_eq_true_eq]
        rw [if_pos (by simp)]
        refine ⟨List.chain'_cons'.mpr ⟨?_, (ih "ArrowDown" lw).1⟩, ?_⟩
        · intro y hy
          exact fun hc => (ih "ArrowDown" lw).2 y hy hc.symm
        · intro y hy
          simp only [List.head?_cons, Option.mem_def, Option.some.injEq] at hy
          subst hy
          rw [hls]
          simp
      · rw [if_neg hls]
        simp only [List.filter_cons, decide_eq_true_eq]
        rw [if_pos (by simp)]
        refine ⟨List.chain'_cons'.mpr ⟨?_, (ih "ArrowUp" lw).1⟩, ?_⟩
        · intro y hy
          exact fun hc => (ih "ArrowUp" lw).2 y hy hc.symm
        · intro y hy
          simp only [List.head?_cons, Option.mem_def, Option.some.injEq] at hy
          subst hy
          exact fun hc => hls hc.symm
    · rw [if_neg hq]
      by_cases hlw : lw = "ArrowLeft"
      · rw [if_pos hlw]
        simp only [List.filter_cons, decide_eq_true_eq]
        rw [if_neg (by simp)]
        exact ih ls _
      · rw [if_neg hlw]
        simp only [List.filter_cons, decide_eq_true_eq]
        rw [if_neg (by simp)]
        exact ih ls _

/-- Among the weak-lane notes the walk emits, consecutive keys differ, and
the first one differs from the current weak tracker. -/
theorem assignGo_weak_chain (thr : ℚ) : ∀ (l : List Onset) (ls lw : String),
    ((assignGo thr ls lw l).filter
      (fun n => decide (n.key = "ArrowRight") || decide (n.key = "ArrowLeft"))).Chain'
      (fun a b => a.key ≠ b.key) ∧
    ∀ y ∈ ((assignGo thr ls lw l).filter
      (fun n => decide (n.key = "ArrowRight") || decide (n.key = "ArrowLeft"))).head?,
      y.key ≠ lw := by
  intro l
  induction l with
  | nil => intro ls lw; exact ⟨by simp [assignGo], by simp [assignGo]⟩
  | cons q rest ih =>
    intro ls lw
    rw [assignGo]
    by_cases hq : thr ≤ q.originalRms
    · rw [if_pos hq]
      by_cases hls : ls = "ArrowUp"
      · rw [if_pos hls]
        simp only [List.filter_cons, decide_eq_true_eq]
        rw [if_neg (by simp)]
        exact ih _ lw
      · rw [if_neg hls]
        simp only [List.filter_cons, decide_eq_true_eq]
        rw [if_neg (by simp)]
        exact ih _ lw
    · rw [if_neg hq]
      by_cases hlw : lw = "ArrowLeft"
      · rw [if_pos hlw]
        simp only [List.filter_cons, decide_eq_true_eq]
        rw [if_pos (by simp)]
        refine ⟨List.chain'_cons'.mpr ⟨?_, (ih ls "ArrowRight").1⟩, ?_⟩
        · intro y hy
          exact fun hc => (ih ls "ArrowRight").2 y hy hc.symm
        · intro y hy
          simp only [List.head?_cons, Option.mem_def, Option.some.injEq] at hy
          subst hy
          rw [hlw]
          simp
      · rw [if_neg hlw]
        simp only [List.filter_cons, decide_eq_true_eq]
        rw [if_pos (by simp)]
        refine ⟨List.chain'_cons'.mpr ⟨?_, (ih ls "ArrowLeft").1⟩, ?_⟩
        · intro y hy
          exact fun hc => (ih ls "ArrowLeft").2 y hy hc.symm
        · intro y hy
          simp only [List.head?_cons, Option.mem_def, Option.some.injEq] at hy
          subst hy
          exact fun hc => hlw hc.symm

/-- C8: every note the assignment stage outputs carries one of the four fixed
lane symbols; notes whose onset is classified strong (stored RMS at least the
threshold) carry only the strong-pair symbols and weak ones only the
weak-pair symbols; and within the strong-lane subsequence (ignoring
interleaved weak notes) the lanes strictly alternate, likewise within the
weak-lane subsequence. -/
theorem assignKeys_lane_invariants (thr : ℚ) (qns : List Onset) :
    (∀ n ∈ assignKeys thr qns,
      n.key = "ArrowDown" ∨ n.key = "ArrowUp" ∨ n.key = "ArrowRight" ∨ n.key = "ArrowLeft") ∧
    List.Forall₂ (fun (q : Onset) (n : Note) =>
      (thr ≤ q.originalRms → (n.key = "ArrowDown" ∨ n.key = "ArrowUp")) ∧
      (q.originalRms < thr → (n.key = "ArrowRight" ∨ n.key = "ArrowLeft")))
      qns (assignKeys thr qns) ∧
    ((assignKeys thr qns).filter
      (fun n => decide (n.key = "ArrowDown") || decide (n.key = "ArrowUp"))).Chain'
      (fun a b => a.key ≠ b.key) ∧
    ((assignKeys thr qns).filter
      (fun n => decide (n.key = "ArrowRight") || decide (n.key = "ArrowLeft"))).Chain'
      (fun a b => a.key ≠ b.key) :=
  ⟨(assignGo_keys thr qns "ArrowUp" "ArrowLeft").1,
   (assignGo_keys thr qns "ArrowUp" "ArrowLeft").2,
   (assignGo_strong_chain thr qns "ArrowUp" "ArrowLeft").1,
   (assignGo_weak_chain thr qns "ArrowUp" "ArrowLeft").1⟩

/-- Witness for `assignKeys_lane_invariants`: the membership conjunct applied
to a concrete note of a concrete run (discharging the membership hypothesis),
together with the two concrete alternation chains. -/
theorem assignKeys_lane_invariants_witness :
    ((⟨0, "ArrowDown"⟩ : Note).key = "ArrowDown" ∨ (⟨0, "ArrowDown"⟩ : Note).key = "ArrowUp" ∨
      (⟨0, "ArrowDown"⟩ : Note).key = "ArrowRight" ∨ (⟨0, "ArrowDown"⟩ : Note).key = "ArrowLeft") ∧
    ((assignKeys 0 [⟨0, 1, 0⟩, ⟨1, 1, 0⟩]).filter
      (fun n => decide (n.key = "ArrowDown") || decide (n.key = "ArrowUp"))).Chain'
      (fun a b => a.key ≠ b.key) :=
  ⟨(assignKeys_lane_invariants 0 [⟨0, 1, 0⟩, ⟨1, 1, 0⟩]).1 ⟨0, "ArrowDown"⟩
      (by simp [assignKeys, assignGo]),
   (assignKeys_lane_invariants 0 [⟨0, 1, 0⟩, ⟨1, 1, 0⟩]).2.2.1⟩

/-- While only weak notes have been walked, the strong tracker is untouched,
so the first strong note flips the initial tracker value. -/
theorem assignGo_first_strong (thr : ℚ) : ∀ (l : List Onset) (ls lw : String) (i : ℕ),
    i < l.length → (∀ k, k < i → (l.getD k ⟨0, 0, 0⟩).originalRms < thr) →
    thr ≤ (l.getD i ⟨0, 0, 0⟩).originalRms →
    (assignGo thr ls lw l).getD i ⟨0, ""⟩ =
      ⟨(l.getD i ⟨0, 0, 0⟩).time, if ls = "ArrowUp" then "ArrowDown" else "ArrowUp"⟩ := by
  intro l
  induction l with
  | nil => intro ls lw i hi; exact absurd hi (by simp)
  | cons q rest ih =>
    intro ls lw i hi hweak hstrong
    match i with
    | 0 =>
      simp only [List.getD_cons_zero] at hstrong ⊢
      rw [assignGo, if_pos hstrong]
      simp
    | (k + 1) =>
      have hq : q.originalRms < thr := by
        have := hweak 0 (Nat.succ_pos k)
        simpa using this
      rw [assignGo, if_neg (not_le.mpr hq)]
      simp only [List.getD_cons_succ] at hstrong ⊢
      exact ih ls _ k (by simpa using hi)
        (fun j hj => by simpa using hweak (j + 1) (by omega)) hstrong

/-- While only strong notes have been walked, the weak tracker is untouched,
so the first weak note flips the initial tracker value. -/
theorem assignGo_first_weak (thr : ℚ) : ∀ (l : List Onset) (ls lw : String) (i : ℕ),
    i < l.length → (∀ k, k < i → thr ≤ (l.getD k ⟨0, 0, 0⟩).originalRms) →
    (l.getD i ⟨0, 0, 0⟩).originalRms < thr →
    (assignGo thr ls lw l).getD i ⟨0, ""⟩ =
      ⟨(l.getD i ⟨0, 0, 0⟩).time, if lw = "ArrowLeft" then "ArrowRight" else "ArrowLeft"⟩ := by
  intro l
  induction l with
  | nil => intro ls lw i hi; exact absurd hi (by simp)
  | cons q rest ih =>
    intro ls lw i hi hstrongPre hweak
    match i with
    | 0 =>
      simp only [List.getD_cons_zero] at hweak ⊢
      rw [assignGo, if_neg (not_le.mpr hweak)]
      simp
    | (k + 1) =>
      have hq : thr ≤ q.originalRms := by
        have := hstrongPre 0 (Nat.succ_pos k)
        simpa using this
      rw [assignGo, if_pos hq]
      simp only [List.getD_cons_succ] at hweak ⊢
      exact ih _ lw k (by simpa using hi)
        (fun j hj => by simpa using hstrongPre (j + 1) (by omega)) hweak

/-- C10: in the lane-assignment stage's output (before deduplication and the
minimum-separation filter), the first note classified strong is assigned
`'ArrowDown'` and the first note classified weak is assigned `'ArrowRight'`,
because the trackers start at `'ArrowUp'` / `'ArrowLeft'` and are flipped
before their first assignment. -/
theorem assign_first_strong_weak_keys (thr : ℚ) (qns : List Onset) :
    (∀ i, i < qns.length →
      (∀ k, k < i → (qns.getD k ⟨0, 0, 0⟩).originalRms < thr) →
      thr ≤ (qns.getD i ⟨0, 0, 0⟩).originalRms →
      (assignKeys thr qns).getD i ⟨0, ""⟩ =
        ⟨(qns.getD i ⟨0, 0, 0⟩).time, "ArrowDown"⟩) ∧
    (∀ i, i < qns.length →
      (∀ k, k < i → thr ≤ (qns.getD k ⟨0, 0, 0⟩).originalRms) →
      (qns.getD i ⟨0, 0, 0⟩).originalRms < thr →
      (assignKeys thr qns).getD i ⟨0, ""⟩ =
        ⟨(qns.getD i ⟨0, 0, 0⟩).time, "ArrowRight"⟩) := by
  constructor
  · intro i hi hweak hstrong
    have := assignGo_first_strong thr qns "ArrowUp" "ArrowLeft" i hi hweak hstrong
    simpa using this
  · intro i hi hstrongPre hweak
    have := assignGo_first_weak thr qns "ArrowUp" "ArrowLeft" i hi hstrongPre hweak
    simpa using this

/-- Witness for `assign_first_strong_weak_keys` on a concrete run: the first
(index 0) note is strong and gets `'ArrowDown'`, the second (index 1) is the
first weak note and gets `'ArrowRight'`. -/
theorem assign_first_strong_weak_keys_witness :
    (assignKeys 3 [⟨0, 5, 0⟩, ⟨1, 0, 0⟩]).getD 0 ⟨0, ""⟩ =
      ⟨(([⟨0, 5, 0⟩, ⟨1, 0, 0⟩] : List Onset).getD 0 ⟨0, 0, 0⟩).time, "ArrowDown"⟩ ∧
    (assignKeys 3 [⟨0, 5, 0⟩, ⟨1, 0, 0⟩]).getD 1 ⟨0, ""⟩ =
      ⟨(([⟨0, 5, 0⟩, ⟨1, 0, 0⟩] : List Onset).getD 1 ⟨0, 0, 0⟩).time, "ArrowRight"⟩ :=
  ⟨(assign_first_strong_weak_keys 3 [⟨0, 5, 0⟩, ⟨1, 0, 0⟩]).1 0 (by simp)
      (fun k hk => absurd hk (by omega)) (by norm_num),
   (assign_first_strong_weak_keys 3 [⟨0, 5, 0⟩, ⟨1, 0, 0⟩]).2 1 (by simp)
      (fun k hk => by interval_cases k; norm_num) (by norm_num)⟩

/-! ### The quantizer's inner fold -/

/-- Exhaustive case analysis of one quantizer iteration. -/
theorem quantStep_cases (beat start t : ℚ) (acc : ℚ × Option ℚ) (sub : ℚ) :
    (beat * sub = 0 ∧ quantStep beat start t acc sub = acc) ∨
    (beat * sub ≠ 0 ∧ acc.2 = none ∧ quantStep beat start t acc sub =
      (gridPointAt beat start t sub, some |t - gridPointAt beat start t sub|)) ∨
    (beat * sub ≠ 0 ∧ ∃ m, acc.2 = some m ∧
      ((|t - gridPointAt beat start t sub| < m ∧ quantStep beat start t acc sub =
          (gridPointAt beat start t sub, some |t - gridPointAt beat start t sub|)) ∨
        (m ≤ |t - gridPointAt beat start t sub| ∧ quantStep beat start t acc sub = acc))) := by
  by_cases hz : beat * sub = 0
  · exact Or.inl ⟨hz, by rw [quantStep, if_pos hz]⟩
  · rcases hacc : acc.2 with _ | m
    · refine Or.inr (Or.inl ⟨hz, rfl, ?_⟩)
      rw [quantStep, if_neg hz, hacc]
    · refine Or.inr (Or.inr ⟨hz, m, rfl, ?_⟩)
      by_cases hlt : |t - gridPointAt beat start t sub| < m
      · refine Or.inl ⟨hlt, ?_⟩
        rw [quantStep, if_neg hz, hacc]
        dsimp only
        rw [if_pos hlt]
      · refine Or.inr ⟨not_lt.mp hlt, ?_⟩
        rw [quantStep, if_neg hz, hacc]
        dsimp only
        rw [if_neg hlt]

/-- Invariants of the quantizer's fold: the recorded minimum always equals
the distance to the recorded point; the recorded minimum never grows; after
processing a subdivision with a non-zero step the recorded minimum is at
most its distance; and the recorded point is the initial one or the grid
point of some processed subdivision with a non-zero step. -/
theorem quantFold_spec (beat start t : ℚ) :
    ∀ (l : List ℚ) (acc : ℚ × Option ℚ),
      (∀ m, acc.2 = some m → m = |t - acc.1|) →
      (∀ m, (l.foldl (quantStep beat start t) acc).2 = some m →
        m = |t - (l.foldl (quantStep beat start t) acc).1|) ∧
      (∀ m0, acc.2 = some m0 →
        ∃ m, (l.foldl (quantStep beat start t) acc).2 = some m ∧ m ≤ m0) ∧
      (∀ sub ∈ l, beat * sub ≠ 0 →
        ∃ m, (l.foldl (quantStep beat start t) acc).2 = some m ∧
          m ≤ |t - gridPointAt beat start t sub|) ∧
      (l.foldl (quantStep beat start t) acc = acc ∨
        ∃ sub ∈ l, beat * sub ≠ 0 ∧
          (l.foldl (quantStep beat start t) acc).1 = gridPointAt beat start t sub) := by
  intro l
  induction l with
  | nil =>
    intro acc hInv
    exact ⟨hInv, fun m0 h => ⟨m0, h, le_refl m0⟩, by simp, Or.inl rfl⟩
  | cons sub l' ih =>
    intro acc hInv
    rw [List.foldl_cons]
    have hInv1 : ∀ m, (quantStep beat start t acc sub).2 = some m →
        m = |t - (quantStep beat start t acc sub).1| := by
      rcases quantStep_cases beat start t acc sub with ⟨-, he⟩ | ⟨-, -, he⟩ |
        ⟨-, m', hm', (⟨-, he⟩ | ⟨-, he⟩)⟩ <;> rw [he]
      · exact hInv
      · intro m h; simp only [Option.some.injEq] at h; rw [← h]
      · intro m h; simp only [Option.some.injEq] at h; rw [← h]
      · exact hInv
    obtain ⟨IH1, IH2, IH3, IH4⟩ := ih (quantStep beat start t acc sub) hInv1
    refine ⟨IH1, ?_, ?_, ?_⟩
    · intro m0 h0
      rcases quantStep_cases beat start t acc sub with ⟨-, he⟩ | ⟨-, hn, -⟩ |
        ⟨-, m', hm', (⟨hlt, he⟩ | ⟨-, he⟩)⟩
      · exact IH2 m0 (by rw [he]; exact h0)
      · rw [h0] at hn; exact absurd hn (by simp)
      · rw [h0] at hm'
        simp only [Option.some.injEq] at hm'
        obtain ⟨m, hm, hle⟩ := IH2 _ (by rw [he])
        exact ⟨m, hm, hle.trans (by rw [hm']; exact le_of_lt hlt)⟩
      · exact IH2 m0 (by rw [he]; exact h0)
    · intro s hs hnz
      rcases List.mem_cons.mp hs with heq | hs'
      · -- the head subdivision: after its own step the minimum is at most
        -- its distance, and the rest of the fold only shrinks it
        rw [heq] at hnz ⊢
        rcases quantStep_cases beat start t acc sub with ⟨hz, -⟩ | ⟨-, -, he⟩ |
          ⟨-, m', hm', (⟨-, he⟩ | ⟨hge, he⟩)⟩
        · exact absurd hz hnz
        · obtain ⟨m, hm, hle⟩ := IH2 _ (by rw [he])
          exact ⟨m, hm, hle⟩
        · obtain ⟨m, hm, hle⟩ := IH2 _ (by rw [he])
          exact ⟨m, hm, hle⟩
        · obtain ⟨m, hm, hle⟩ := IH2 m' (by rw [he]; exact hm')
          exact ⟨m, hm, hle.trans hge⟩
      · obtain ⟨m, hm, hle⟩ := IH3 s hs' hnz
        exact ⟨m, hm, hle⟩
    · rcases IH4 with heq | ⟨s, hs, hnz, hgp⟩
      · rw [heq]
        rcases quantStep_cases beat start t acc sub with ⟨-, he⟩ | ⟨hnz, -, he⟩ |
          ⟨hnz, m', hm', (⟨-, he⟩ | ⟨-, he⟩)⟩
        · exact Or.inl he
        · exact Or.inr ⟨sub, List.mem_cons_self sub l', hnz, by rw [he]⟩
        · exact Or.inr ⟨sub, List.mem_cons_self sub l', hnz, by rw [he]⟩
        · exact Or.inl he
      · exact Or.inr ⟨s, List.mem_cons_of_mem sub hs, hnz, hgp⟩

/-- C7: for a non-empty candidate list the quantizer leaves `originalRms` and
`odfValue` unchanged and replaces each candidate's time by `max 0 best`,
where `best` minimises the absolute time error over the nearest grid points
of all subdivisions whose grid step is non-zero (with the first candidate's
time as grid origin), and is the candidate's own time when every grid step
is zero. -/
theorem quantize_minimizes (grid : List ℚ) (beat : ℚ) (onsets : List Onset)
    (h : onsets ≠ []) (i : ℕ) (hi : i < onsets.length) :
    (quantizeAll grid beat onsets).length = onsets.length ∧
    ((quantizeAll grid beat onsets).getD i ⟨0, 0, 0⟩).originalRms =
      (onsets.getD i ⟨0, 0, 0⟩).originalRms ∧
    ((quantizeAll grid beat onsets).getD i ⟨0, 0, 0⟩).odfValue =
      (onsets.getD i ⟨0, 0, 0⟩).odfValue ∧
    ∃ best,
      ((quantizeAll grid beat onsets).getD i ⟨0, 0, 0⟩).time = max 0 best ∧
      (∀ sub ∈ grid, beat * sub ≠ 0 →
        |(onsets.getD i ⟨0, 0, 0⟩).time - best| ≤
          |(onsets.getD i ⟨0, 0, 0⟩).time -
            gridPointAt beat (onsets.head h).time (onsets.getD i ⟨0, 0, 0⟩).time sub|) ∧
      ((∃ sub ∈ grid, beat * sub ≠ 0 ∧
          best = gridPointAt beat (onsets.head h).time (onsets.getD i ⟨0, 0, 0⟩).time sub) ∨
        (best = (onsets.getD i ⟨0, 0, 0⟩).time ∧ ∀ sub ∈ grid, beat * sub = 0)) := by
  have hstart : (match onsets.head? with
      | some o => o.time
      | none => 0) = (onsets.head h).time := by
    cases onsets with
    | nil => exact absurd rfl h
    | cons a l => rfl
  have hget : (quantizeAll grid beat onsets).getD i ⟨0, 0, 0⟩ =
      quantizeOne grid beat (onsets.head h).time (onsets.getD i ⟨0, 0, 0⟩) := by
    rw [quantizeAll, hstart, List.getD_eq_getElem?_getD, List.getElem?_map,
      List.getElem?_eq_getElem hi, List.getD_eq_getElem?_getD,
      List.getElem?_eq_getElem hi]
    rfl
  have hlen : (quantizeAll grid beat onsets).length = onsets.length := by
    rw [quantizeAll]
    exact List.length_map onsets _
  refine ⟨hlen, by rw [hget]; rfl, by rw [hget]; rfl, ?_⟩
  obtain ⟨H1, -, H3, H4⟩ := quantFold_spec beat (onsets.head h).time
    (onsets.getD i ⟨0, 0, 0⟩).time grid ((onsets.getD i ⟨0, 0, 0⟩).time, none)
    (by intro m hm; exact absurd hm (by simp))
  refine ⟨(quantChoose grid beat (onsets.head h).time (onsets.getD i ⟨0, 0, 0⟩).time).1,
    by rw [hget]; rfl, ?_, ?_⟩
  · intro sub hs hnz
    obtain ⟨m, hm, hle⟩ := H3 sub hs hnz
    have := H1 m hm
    rw [this] at hle
    exact hle
  · rcases H4 with heq | ⟨sub, hs, hnz, hgp⟩
    · refine Or.inr ⟨?_, ?_⟩
      · unfold quantChoose
        rw [heq]
      · intro sub hs
        by_contra hnz
        obtain ⟨m, hm, -⟩ := H3 sub hs hnz
        rw [heq] at hm
        exact absurd hm (by simp)
    · refine Or.inl ⟨sub, hs, hnz, ?_⟩
      unfold quantChoose
      rw [hgp]

/-- Witness for `quantize_minimizes` at a concrete grid, beat and onset. -/
theorem quantize_minimizes_witness :
    (quantizeAll [1, 0] 2 [⟨1, 5, 6⟩]).length = ([⟨1, 5, 6⟩] : List Onset).length ∧
    ((quantizeAll [1, 0] 2 [⟨1, 5, 6⟩]).getD 0 ⟨0, 0, 0⟩).originalRms =
      (([⟨1, 5, 6⟩] : List Onset).getD 0 ⟨0, 0, 0⟩).originalRms ∧
    ((quantizeAll [1, 0] 2 [⟨1, 5, 6⟩]).getD 0 ⟨0, 0, 0⟩).odfValue =
      (([⟨1, 5, 6⟩] : List Onset).getD 0 ⟨0, 0, 0⟩).odfValue ∧
    ∃ best,
      ((quantizeAll [1, 0] 2 [⟨1, 5, 6⟩]).getD 0 ⟨0, 0, 0⟩).time = max 0 best ∧
      (∀ sub ∈ ([1, 0] : List ℚ), (2 : ℚ) * sub ≠ 0 →
        |(([⟨1, 5, 6⟩] : List Onset).getD 0 ⟨0, 0, 0⟩).time - best| ≤
          |(([⟨1, 5, 6⟩] : List Onset).getD 0 ⟨0, 0, 0⟩).time -
            gridPointAt 2 (([⟨1, 5, 6⟩] : List Onset).head (by simp)).time
              (([⟨1, 5, 6⟩] : List Onset).getD 0 ⟨0, 0, 0⟩).time sub|) ∧
      ((∃ sub ∈ ([1, 0] : List ℚ), (2 : ℚ) * sub ≠ 0 ∧
          best = gridPointAt 2 (([⟨1, 5, 6⟩] : List Onset).head (by simp)).time
            (([⟨1, 5, 6⟩] : List Onset).getD 0 ⟨0, 0, 0⟩).time sub) ∨
        (best = (([⟨1, 5, 6⟩] : List Onset).getD 0 ⟨0, 0, 0⟩).time ∧
          ∀ sub ∈ ([1, 0] : List ℚ), (2 : ℚ) * sub = 0)) :=
  quantize_minimizes [1, 0] 2 [⟨1, 5, 6⟩] (by simp) 0 (by simp)

/-! ### Deduplication -/

/-- C4 counterexample: two distinct synthetic onsets at the identical
quantized time `0` (hence the same millisecond), the second with strictly
higher salience (`odfValue` 2 against 1).  Both are classified strong, so
their assigned notes are `ArrowDown` then `ArrowUp`.  The deduplication step
emits the FIRST-inserted note `⟨0, ArrowDown⟩`, not the note derived from the
higher-salience onset (`⟨0, ArrowUp⟩`): with identical exact times both
`quantizedNotes.find(...)` lookups of the source resolve to the same first
onset, so the salience comparison degenerates to `1 > 1`. -/
theorem dedup_same_time_keeps_first_cex :
    strongThreshold [⟨0, 1, 1⟩, ⟨0, 1, 2⟩] = 1 ∧
    assignKeys (strongThreshold [⟨0, 1, 1⟩, ⟨0, 1, 2⟩]) [⟨0, 1, 1⟩, ⟨0, 1, 2⟩] =
      [⟨0, "ArrowDown"⟩, ⟨0, "ArrowUp"⟩] ∧
    dedupNotes
      (assignKeys (strongThreshold [⟨0, 1, 1⟩, ⟨0, 1, 2⟩]) [⟨0, 1, 1⟩, ⟨0, 1, 2⟩])
      [⟨0, 1, 1⟩, ⟨0, 1, 2⟩] = [⟨0, "ArrowDown"⟩] ∧
    (⟨0, 1, 1⟩ : Onset).odfValue < (⟨0, 1, 2⟩ : Onset).odfValue ∧
    ([⟨0, "ArrowDown"⟩] : List Note) ≠ [⟨0, "ArrowUp"⟩] := by
  have ht : strongThreshold [⟨0, 1, 1⟩, ⟨0, 1, 2⟩] = 1 := by
    norm_num [strongThreshold, List.insertionSort, List.orderedInsert]
  have hk : assignKeys 1 [⟨0, 1, 1⟩, ⟨0, 1, 2⟩] = [⟨0, "ArrowDown"⟩, ⟨0, "ArrowUp"⟩] := by
    norm_num [assignKeys, assignGo]
  have hd : dedupNotes [⟨0, "ArrowDown"⟩, ⟨0, "ArrowUp"⟩] [⟨0, 1, 1⟩, ⟨0, 1, 2⟩] =
      [⟨0, "ArrowDown"⟩] := by
    norm_num [dedupNotes, dedupStep, getKey?, setKey, jround, List.find?]
  refine ⟨ht, by rw [ht]; exact hk, by rw [ht, hk]; exact hd, by norm_num, by simp⟩

/-- C4 amended: a pair of onsets whose quantized times round to the same
millisecond yields exactly one note; when the two quantized times are
distinct, it is the note of the strictly-higher-salience onset (ties keep
the first inserted); when the quantized times are exactly equal, the
first-inserted note is kept regardless of salience. -/
theorem dedup_pair_amended (a b : Onset) (na nb : Note)
    (ha : na.time = a.time) (hb : nb.time = b.time)
    (hms : jround (a.time * 1000) = jround (b.time * 1000)) :
    dedupNotes [na, nb] [a, b] =
      if a.time ≠ b.time ∧ a.odfValue < b.odfValue then [nb] else [na] := by
  rw [dedupNotes, List.foldl_cons, List.foldl_cons, List.foldl_nil]
  have h1 : dedupStep [a, b] [] na = [(jround (na.time * 1000), na)] := rfl
  rw [h1]
  rw [dedupStep]
  have hget : getKey? [(jround (na.time * 1000), na)] (jround (nb.time * 1000)) = some na := by
    rw [getKey?]
    rw [List.find?_cons_of_pos _ (by simp [ha, hb, hms])]
    rfl
  rw [hget]
  dsimp only
  by_cases heq : a.time = b.time
  · have hcur : List.find? (fun qn : Onset =>
        decide (jround (qn.time * 1000) = jround (nb.time * 1000)) &&
        decide (qn.time = nb.time)) [a, b] = some a := by
      rw [List.find?_cons_of_pos _ (by simp [hb, heq, hms])]
    have hex : List.find? (fun qn : Onset =>
        decide (jround (qn.time * 1000) = jround (nb.time * 1000)) &&
        decide (qn.time = na.time)) [a, b] = some a := by
      rw [List.find?_cons_of_pos _ (by simp [ha, hb, hms])]
    rw [hcur, hex]
    dsimp only
    rw [if_neg (lt_irrefl a.odfValue),
      if_neg (show ¬(a.time ≠ b.time ∧ a.odfValue < b.odfValue) from fun hc => hc.1 heq)]
    rfl
  · have hcur : List.find? (fun qn : Onset =>
        decide (jround (qn.time * 1000) = jround (nb.time * 1000)) &&
        decide (qn.time = nb.time)) [a, b] = some b := by
      rw [List.find?_cons_of_neg _ (by simp [hb]; intro _; exact fun hc => heq hc),
        List.find?_cons_of_pos _ (by simp [hb])]
    have hex : List.find? (fun qn : Onset =>
        decide (jround (qn.time * 1000) = jround (nb.time * 1000)) &&
        decide (qn.time = na.time)) [a, b] = some a := by
      rw [List.find?_cons_of_pos _ (by simp [ha, hb, hms])]
    rw [hcur, hex]
    dsimp only
    by_cases hodf : a.odfValue < b.odfValue
    · rw [if_pos hodf,
        if_pos (show a.time ≠ b.time ∧ a.odfValue < b.odfValue from ⟨heq, hodf⟩)]
      rw [setKey, if_pos (show jround (na.time * 1000) = jround (nb.time * 1000) by
        rw [ha, hb, hms])]
      rfl
    · rw [if_neg hodf,
        if_neg (show ¬(a.time ≠ b.time ∧ a.odfValue < b.odfValue) from fun hc => hodf hc.2)]
      rfl

/-- Witness for `dedup_pair_amended`: two onsets one tenth of a millisecond
apart (distinct quantized times, same rounded millisecond), the second with
higher salience. -/
theorem dedup_pair_amended_witness :
    dedupNotes [⟨0, "ArrowLeft"⟩, ⟨1/10000, "ArrowUp"⟩] [⟨0, 1, 1⟩, ⟨1/10000, 1, 5⟩] =
      if (⟨0, 1, 1⟩ : Onset).time ≠ (⟨1/10000, 1, 5⟩ : Onset).time ∧
          (⟨0, 1, 1⟩ : Onset).odfValue < (⟨1/10000, 1, 5⟩ : Onset).odfValue
        then [⟨1/10000, "ArrowUp"⟩] else [⟨0, "ArrowLeft"⟩] :=
  dedup_pair_amended ⟨0, 1, 1⟩ ⟨1/10000, 1, 5⟩ ⟨0, "ArrowLeft"⟩ ⟨1/10000, "ArrowUp"⟩
    rfl rfl (by norm_num [jround])
